import Mathlib

/-!
Verification of the choredomino offline sync layer.

Shallow embedding of:
* the conflict resolver (`conflict.ts`): `resolveConflict`, `mergeDocuments`;
* the CRUD layer over IndexedDB (`src/db/operations.ts`): `upsert`,
  `bulkUpsert`, `remove`, `getModifiedSince`;
* the sync engine (`src/db/sync.ts`): `pullCollection`, `pushLocalChanges`,
  `handleRealtimeChange`, `forceSyncAll`.

Modelling conventions:
* Timestamps (`Date.now()` values) are natural numbers passed explicitly.
* A document is a record of the fixed bookkeeping fields (`id`, `createdAt`,
  `updatedAt`, `modified`, `isDeleted`) plus an association list of domain
  fields; JavaScript object spread `{...a, ...b}` is modelled by `docSpread`.
  The optional `isDeleted` flag is modelled as a `Bool` with absent ≡ false,
  matching every use site in the code (`!doc.isDeleted`, `doc.isDeleted || false`).
* The IndexedDB object store for one collection is a list of documents;
  `put` replaces the record with the same primary key or appends, and reading
  through the `by-modified` secondary index sorts by (modified, id), which is
  the key order IndexedDB reports for an index with the primary key as tiebreak.
* A remote (Supabase) row carries the wire column `_modified` (`wireModified`)
  and `_deleted` (`wireDeleted`); network results and Postgrest error codes are
  parameters of the sync functions, and a thrown exception is an `Except.error`.
-/

set_option autoImplicit false

namespace Choredomino

/-- Domain (collection-specific) fields of a JS object, as an association
list from property name to value.  A real JS object has no duplicate keys;
where a proof needs that, it appears as an explicit `Nodup` hypothesis. -/
abbrev Fields := List (String × String)

/-- First-match lookup of a property, the semantics of reading `obj[k]`. -/
def lookupField (f : Fields) (k : String) : Option String :=
  match f with
  | [] => none
  | p :: rest => if p.1 = k then some p.2 else lookupField rest k

/-- JavaScript object spread `{...f, ...g}` restricted to the domain fields:
keys of `f` keep their position but take `g`'s value when `g` has the key;
keys of `g` not in `f` follow in `g`'s order. -/
def spreadFields (f g : Fields) : Fields :=
  f.map (fun p => match lookupField g p.1 with | some v => (p.1, v) | none => p)
    ++ g.filter (fun p => !(f.any (fun q => q.1 == p.1)))

/-- A document as stored in IndexedDB (`AnyDocument` in `operations.ts`). -/
structure Doc where
  id : String
  createdAt : Nat
  updatedAt : Nat
  modified : Nat
  isDeleted : Bool
  fields : Fields
deriving DecidableEq, Repr

/-- JavaScript spread `{...l, ...r}` of two documents: every field of `r`
overrides `l`'s. -/
def docSpread (l r : Doc) : Doc :=
  { id := r.id, createdAt := r.createdAt, updatedAt := r.updatedAt,
    modified := r.modified, isDeleted := r.isDeleted,
    fields := spreadFields l.fields r.fields }

/-- The `source` tag of a conflict resolution (`'local' | 'remote' | 'merged'`). -/
inductive Source where
  | localSrc
  | remoteSrc
  | mergedSrc
deriving DecidableEq, Repr

/-- Return value of `resolveConflict`: `{ winner, source }`. -/
structure ResolveResult where
  winner : Doc
  source : Source
deriving DecidableEq, Repr

/-- The merged record produced on a timestamp tie, written inline in
`resolveConflict`: `{...local, ...remote, updatedAt: Math.max(local.updatedAt,
remote.updatedAt), modified: remote.modified}`. -/
def mergeTie (l r : Doc) : Doc :=
  { docSpread l r with
      updatedAt := max l.updatedAt r.updatedAt,
      modified := r.modified }

/-- `resolveConflict` from `conflict.ts`: last-write-wins on `modified`,
`throw` (here `Except.error`) on id mismatch, merge with remote preference
on a timestamp tie. -/
def resolveConflict (l r : Doc) : Except String ResolveResult :=
  if l.id ≠ r.id then
    .error ("Cannot resolve conflict: ID mismatch (" ++ l.id ++ " vs " ++ r.id ++ ")")
  else if r.modified < l.modified then
    .ok ⟨l, .localSrc⟩
  else if l.modified < r.modified then
    .ok ⟨r, .remoteSrc⟩
  else
    .ok ⟨mergeTie l r, .mergedSrc⟩

section FieldLemmas

/-- Lookup in the override part of a spread. -/
theorem lookupField_map_override (f g : Fields) (k : String) :
    lookupField (f.map (fun p => match lookupField g p.1 with
      | some v => (p.1, v) | none => p)) k
      = match lookupField f k with
        | none => none
        | some v => some ((lookupField g k).getD v) := by
  induction f with
  | nil => simp [lookupField]
  | cons p rest ih =>
    by_cases h : p.1 = k
    · subst h
      cases hg : lookupField g p.1 <;>
        simp [lookupField, hg]
    · cases hg : lookupField g p.1 <;>
        simp [lookupField, hg, h, ih]

/-- Lookup distributes over append, preferring the left list. -/
theorem lookupField_append (a b : Fields) (k : String) :
    lookupField (a ++ b) k = (lookupField a k).or (lookupField b k) := by
  induction a with
  | nil => simp [lookupField]
  | cons p rest ih =>
    by_cases h : p.1 = k <;> simp [lookupField, h, ih]

/-- Lookup in a filter whose predicate depends only on the key. -/
theorem lookupField_filter_key (g : Fields) (h : String → Bool) (k : String) :
    lookupField (g.filter (fun p => h p.1)) k
      = if h k then lookupField g k else none := by
  induction g with
  | nil => simp [lookupField]
  | cons p rest ih =>
    by_cases hpk : p.1 = k
    · subst hpk
      cases hh : h p.1 <;> simp [lookupField, hh, ih]
    · cases hh : h p.1 <;> simp [List.filter, lookupField, hh, hpk, ih]

/-- `any`-membership agrees with lookup success. -/
theorem any_key_eq_isSome (f : Fields) (k : String) :
    (f.any (fun q => q.1 == k)) = (lookupField f k).isSome := by
  induction f with
  | nil => simp [lookupField]
  | cons p rest ih =>
    by_cases h : p.1 = k <;> simp [lookupField, h, ih]

/-- Field lookup in a JS spread: the right object's value when present,
otherwise the left object's. -/
theorem lookupField_spreadFields (f g : Fields) (k : String) :
    lookupField (spreadFields f g) k = (lookupField g k).or (lookupField f k) := by
  unfold spreadFields
  rw [lookupField_append, lookupField_map_override]
  have hfilter : lookupField
      (g.filter (fun p => !(f.any (fun q => q.1 == p.1)))) k
      = if !(f.any (fun q => q.1 == k)) then lookupField g k else none :=
    lookupField_filter_key g (fun s => !(f.any (fun q => q.1 == s))) k
  rw [hfilter, any_key_eq_isSome]
  cases hf : lookupField f k <;> cases hg : lookupField g k <;> simp [Option.or]

end FieldLemmas

/-- C3: `resolveConflict` raises an error if and only if the two ids differ:
with equal ids it always returns an `ok` result, with different ids it
always throws. -/
theorem resolveConflict_error_iff_id_mismatch (l r : Doc) :
    ((∃ res, resolveConflict l r = .ok res) ↔ l.id = r.id)
      ∧ ((∃ e, resolveConflict l r = .error e) ↔ l.id ≠ r.id) := by
  by_cases h : l.id = r.id
  · constructor
    · refine ⟨fun _ => h, fun _ => ?_⟩
      rcases Nat.lt_trichotomy r.modified l.modified with hlt | heq | hgt
      · exact ⟨⟨l, .localSrc⟩, by simp [resolveConflict, h, hlt]⟩
      · exact ⟨⟨mergeTie l r, .mergedSrc⟩, by simp [resolveConflict, h, heq]⟩
      · exact ⟨⟨r, .remoteSrc⟩, by
          simp [resolveConflict, h, hgt, Nat.not_lt.mpr (Nat.le_of_lt hgt)]⟩
    · constructor
      · rintro ⟨e, he⟩
        rcases Nat.lt_trichotomy r.modified l.modified with hlt | heq | hgt
        · simp [resolveConflict, h, hlt] at he
        · simp [resolveConflict, h, heq] at he
        · simp [resolveConflict, h, hgt, Nat.not_lt.mpr (Nat.le_of_lt hgt)] at he
      · intro hne; exact absurd h hne
  · constructor
    · constructor
      · rintro ⟨res, hres⟩
        simp [resolveConflict, h] at hres
      · intro heq; exact absurd heq h
    · exact ⟨fun _ => h, fun _ =>
        ⟨"Cannot resolve conflict: ID mismatch (" ++ l.id ++ " vs " ++ r.id ++ ")",
          by simp [resolveConflict, h]⟩⟩

/-- C1: with equal ids and distinct `modified` timestamps, the winner is the
side with the larger timestamp — source `local` and winner `local` when local
is newer, source `remote` and winner `remote` when remote is newer — so the
winner's `modified` is the max of the two. -/
theorem resolveConflict_last_write_wins (l r : Doc)
    (hid : l.id = r.id) (hne : l.modified ≠ r.modified) :
    resolveConflict l r
      = .ok (if r.modified < l.modified then ⟨l, .localSrc⟩ else ⟨r, .remoteSrc⟩)
    ∧ (if r.modified < l.modified then l.modified else r.modified)
      = max l.modified r.modified := by
  rcases Nat.lt_or_ge r.modified l.modified with hlt | hge
  · constructor
    · simp [resolveConflict, hid, hlt]
    · simp [hlt, Nat.max_eq_left (Nat.le_of_lt hlt)]
  · have hlt : l.modified < r.modified := by omega
    have hnlt : ¬ r.modified < l.modified := Nat.not_lt.mpr hge
    constructor
    · simp [resolveConflict, hid, hlt, hnlt]
    · simp [hnlt, Nat.max_eq_right (Nat.le_of_lt hlt)]

/-- Witness for C1, the spec's scenario: local `{id:"a", modified:100}` vs
remote `{id:"a", modified:200, field:"X"}` resolves to the remote record. -/
theorem resolveConflict_last_write_wins_witness :
    resolveConflict ⟨"a", 0, 0, 100, false, []⟩ ⟨"a", 0, 0, 200, false, [("field", "X")]⟩
      = .ok ⟨⟨"a", 0, 0, 200, false, [("field", "X")]⟩, .remoteSrc⟩ :=
  ((resolveConflict_last_write_wins ⟨"a", 0, 0, 100, false, []⟩
      ⟨"a", 0, 0, 200, false, [("field", "X")]⟩ rfl (by decide)).1).trans
    (congrArg Except.ok (by decide))

/-- C2: on a timestamp tie with equal ids, the result is the merged record:
source `merged`, the winner's `modified` is remote's value, its `updatedAt`
the max of both sides, and field-by-field the remote value takes precedence
where present, falling back to the local value. -/
theorem resolveConflict_tie_merges (l r : Doc)
    (hid : l.id = r.id) (heq : l.modified = r.modified) :
    resolveConflict l r = .ok ⟨mergeTie l r, .mergedSrc⟩
    ∧ (mergeTie l r).modified = r.modified
    ∧ (mergeTie l r).updatedAt = max l.updatedAt r.updatedAt
    ∧ ∀ k, lookupField (mergeTie l r).fields k
        = (lookupField r.fields k).or (lookupField l.fields k) := by
  refine ⟨by simp [resolveConflict, hid, heq], rfl, rfl, fun k => ?_⟩
  simpa [mergeTie, docSpread] using lookupField_spreadFields l.fields r.fields k

/-- Witness for C2, the spec's tie scenario extended with domain fields:
equal `modified = 500` produces the merged record with remote precedence. -/
theorem resolveConflict_tie_merges_witness :
    resolveConflict ⟨"b", 0, 10, 500, false, [("t", "L"), ("x", "1")]⟩
        ⟨"b", 0, 20, 500, false, [("t", "R")]⟩
      = .ok ⟨⟨"b", 0, 20, 500, false, [("t", "R"), ("x", "1")]⟩, .mergedSrc⟩ :=
  ((resolveConflict_tie_merges ⟨"b", 0, 10, 500, false, [("t", "L"), ("x", "1")]⟩
      ⟨"b", 0, 20, 500, false, [("t", "R")]⟩ rfl rfl).1).trans
    (congrArg Except.ok (by decide))

/-! ### The IndexedDB store and `operations.ts` -/

/-- One collection's object store. IndexedDB keys records by `id` (`keyPath`),
so `put` replaces the record with the same id or adds a new one. -/
abbrev Store := List Doc

/-- `db.get(collection, id)`: the record stored under a primary key. -/
def lookupDoc (s : Store) (i : String) : Option Doc :=
  match s with
  | [] => none
  | d :: rest => if d.id = i then some d else lookupDoc rest i

/-- `store.put(doc)`: insert-or-replace by primary key. -/
def idbPut (s : Store) (d : Doc) : Store :=
  if s.any (fun x => x.id == d.id) then
    s.map (fun x => if x.id = d.id then d else x)
  else
    s ++ [d]

/-- The timestamp stamping `{...doc, updatedAt: now, modified: now}` shared
by `upsert` and `bulkUpsert` in `operations.ts`. -/
def stamp (now : Nat) (d : Doc) : Doc :=
  { d with updatedAt := now, modified := now }

/-- `upsert(collection, document)`: stamp `updatedAt`/`modified` with the
current time, `put`, and return the stored record. -/
def upsert (s : Store) (d : Doc) (now : Nat) : Store × Doc :=
  let doc := stamp now d
  (idbPut s doc, doc)

/-- `bulkUpsert(collection, documents)`: stamp every document with the one
current time and `put` them all in one transaction. -/
def bulkUpsert (s : Store) (ds : List Doc) (now : Nat) : Store × List Doc :=
  let docs := ds.map (stamp now)
  (docs.foldl idbPut s, docs)

/-- `remove(collection, id, hard)`: hard delete removes the record physically;
soft delete re-writes the existing record with `isDeleted: true` and fresh
timestamps, and does nothing when no record with the id exists. -/
def remove (s : Store) (i : String) (hard : Bool) (now : Nat) : Store :=
  if hard then
    s.filter (fun d => !(d.id == i))
  else
    match lookupDoc s i with
    | none => s
    | some d => idbPut s { d with isDeleted := true, updatedAt := now, modified := now }

/-- Key order of the `by-modified` secondary index: IndexedDB iterates an
index in index-key order with the primary key as tiebreaker. -/
def docLE (a b : Doc) : Prop :=
  a.modified < b.modified ∨ (a.modified = b.modified ∧ a.id ≤ b.id)

instance : DecidableRel docLE := fun a b => by
  unfold docLE; infer_instance

instance : IsTotal Doc docLE where
  total a b := by
    rcases Nat.lt_trichotomy a.modified b.modified with h | h | h
    · exact Or.inl (Or.inl h)
    · rcases le_total a.id b.id with hid | hid
      · exact Or.inl (Or.inr ⟨h, hid⟩)
      · exact Or.inr (Or.inr ⟨h.symm, hid⟩)
    · exact Or.inr (Or.inl h)

instance : IsTrans Doc docLE where
  trans a b c hab hbc := by
    rcases hab with h1 | ⟨h1, h1'⟩ <;> rcases hbc with h2 | ⟨h2, h2'⟩
    · exact Or.inl (Nat.lt_trans h1 h2)
    · exact Or.inl (h2 ▸ h1)
    · exact Or.inl (h1 ▸ h2)
    · exact Or.inr ⟨h1.trans h2, le_trans h1' h2'⟩

/-- `db.getAllFromIndex(collection, 'by-modified', range)` with a lower-bound
key range: the records whose `modified` lies in the range, in index order. -/
def getAllFromIndexByModified (s : Store) (lower : Nat) (lowerOpen : Bool) : List Doc :=
  List.insertionSort docLE
    (s.filter (fun d => if lowerOpen then decide (lower < d.modified)
                        else decide (lower ≤ d.modified)))

/-- `getModifiedSince(collection, timestamp)`: reads the `by-modified` index
with `IDBKeyRange.lowerBound(timestamp, true)` — an open (strict) bound. -/
def getModifiedSince (s : Store) (t : Nat) : List Doc :=
  getAllFromIndexByModified s t true

/-! ### Lemmas about the store primitives -/

/-- Primary-key lookup distributes over append, preferring the left part. -/
theorem lookupDoc_append (a b : Store) (i : String) :
    lookupDoc (a ++ b) i = (lookupDoc a i).or (lookupDoc b i) := by
  induction a with
  | nil => simp [lookupDoc]
  | cons x rest ih =>
    by_cases h : x.id = i <;> simp [lookupDoc, h, ih]

/-- `any`-membership by id agrees with lookup success. -/
theorem any_id_eq_isSome (s : Store) (i : String) :
    (s.any (fun x => x.id == i)) = (lookupDoc s i).isSome := by
  induction s with
  | nil => simp [lookupDoc]
  | cons x rest ih =>
    by_cases h : x.id = i <;> simp [lookupDoc, h, ih]

/-- The in-place replacement performed by `put` on an existing key does not
touch records with other ids. -/
theorem lookupDoc_map_replace_ne (s : Store) (d : Doc) (i : String)
    (hdi : d.id ≠ i) :
    lookupDoc (s.map (fun x => if x.id = d.id then d else x)) i = lookupDoc s i := by
  induction s with
  | nil => rfl
  | cons x rest ih =>
    by_cases hx : x.id = d.id
    · have hxi : ¬ x.id = i := fun hxi => hdi (hx ▸ hxi)
      simp [lookupDoc, hx, hxi, hdi, ih]
    · by_cases hxi : x.id = i
      · have hid : ¬ i = d.id := fun h => hx (by rw [hxi, h])
        simp [lookupDoc, hx, hxi, hid]
      · simp [lookupDoc, hx, hxi, ih]

/-- Reading after a `put`: the put document under its own id, anything else
unchanged. -/
theorem lookupDoc_idbPut (s : Store) (d : Doc) (i : String) :
    lookupDoc (idbPut s d) i = if d.id = i then some d else lookupDoc s i := by
  unfold idbPut
  by_cases hmem : s.any (fun x => x.id == d.id)
  · rw [if_pos hmem]
    by_cases hdi : d.id = i
    · subst hdi
      rw [any_id_eq_isSome] at hmem
      simp only [if_pos rfl]
      induction s with
      | nil => simp [lookupDoc] at hmem
      | cons x rest ih =>
        by_cases hx : x.id = d.id
        · simp [lookupDoc, hx]
        · have : (lookupDoc rest d.id).isSome := by
            simpa [lookupDoc, hx] using hmem
          simp [lookupDoc, hx, ih this]
    · rw [if_neg hdi]
      exact lookupDoc_map_replace_ne s d i hdi
  · rw [if_neg hmem, lookupDoc_append]
    by_cases hdi : d.id = i
    · subst hdi
      have hnone : lookupDoc s d.id = none := by
        rw [any_id_eq_isSome] at hmem
        exact Option.not_isSome_iff_eq_none.mp (by simpa using hmem)
      simp [lookupDoc, hnone]
    · simp [lookupDoc, hdi]

/-- Reading after a sequence of `put`s: either a put document or the old
value. -/
theorem lookupDoc_foldl_idbPut_cases (ds : List Doc) (s : Store) (i : String)
    (cur : Doc) (h : lookupDoc (ds.foldl idbPut s) i = some cur) :
    cur ∈ ds ∨ lookupDoc s i = some cur := by
  induction ds generalizing s with
  | nil => exact Or.inr h
  | cons d rest ih =>
    rcases ih (idbPut s d) (by simpa using h) with hmem | hlook
    · exact Or.inl (List.mem_cons_of_mem _ hmem)
    · rw [lookupDoc_idbPut] at hlook
      by_cases hdi : d.id = i
      · simp [hdi] at hlook
        exact Or.inl (hlook ▸ List.mem_cons_self d rest)
      · simp [hdi] at hlook
        exact Or.inr hlook

/-- A sequence of `put`s leaves untouched ids unchanged. -/
theorem lookupDoc_foldl_idbPut_frame (ds : List Doc) (s : Store) (i : String)
    (h : ∀ d ∈ ds, d.id ≠ i) :
    lookupDoc (ds.foldl idbPut s) i = lookupDoc s i := by
  induction ds generalizing s with
  | nil => rfl
  | cons d rest ih =>
    have := ih (idbPut s d) (fun x hx => h x (List.mem_cons_of_mem _ hx))
    rw [List.foldl_cons, this, lookupDoc_idbPut,
      if_neg (h d (List.mem_cons_self d rest))]

/-- Reading the id of a document put by a batch with no duplicate ids. -/
theorem lookupDoc_foldl_idbPut_mem (ds : List Doc) (s : Store) (d : Doc)
    (hmem : d ∈ ds) (hu : (ds.map Doc.id).Nodup) :
    lookupDoc (ds.foldl idbPut s) d.id = some d := by
  induction ds generalizing s with
  | nil => cases hmem
  | cons c rest ih =>
    rcases List.mem_cons.mp hmem with rfl | hrest
    · have hni : ∀ x ∈ rest, x.id ≠ d.id := by
        intro x hx hcontra
        have := (List.nodup_cons.mp hu).1
        exact this (hcontra ▸ List.mem_map_of_mem Doc.id hx)
      rw [List.foldl_cons, lookupDoc_foldl_idbPut_frame rest _ _ hni,
        lookupDoc_idbPut, if_pos rfl]
    · exact List.foldl_cons _ _ ▸ ih (idbPut s c) hrest (List.nodup_cons.mp hu).2

/-- C9: `getModifiedSince` returns exactly the stored records whose
`modified` is strictly greater than the watermark — soft-deleted ones
included, ones equal to the watermark excluded — in `modified` order. -/
theorem getModifiedSince_spec (s : Store) (t : Nat) :
    (∀ d, d ∈ getModifiedSince s t ↔ d ∈ s ∧ t < d.modified)
      ∧ List.Pairwise (fun a b => a.modified ≤ b.modified) (getModifiedSince s t) := by
  constructor
  · intro d
    unfold getModifiedSince getAllFromIndexByModified
    rw [(List.perm_insertionSort docLE _).mem_iff, List.mem_filter]
    simp
  · have hsorted : List.Sorted docLE (getModifiedSince s t) :=
      List.sorted_insertionSort docLE _
    exact hsorted.imp (fun h => by
      rcases h with h | ⟨h, _⟩
      · exact Nat.le_of_lt h
      · exact Nat.le_of_eq h)

/-- C10: soft-`remove` of an id that is not in the collection returns without
error and leaves the collection entirely unchanged — no tombstone is created
and no record is altered. -/
theorem remove_soft_absent_id (s : Store) (i : String) (now : Nat)
    (h : lookupDoc s i = none) :
    remove s i false now = s := by
  simp [remove, h]

/-- Witness for C10 at a concrete store and id. -/
theorem remove_soft_absent_id_witness :
    remove [⟨"a", 1, 2, 3, false, []⟩] "b" false 9 = [⟨"a", 1, 2, 3, false, []⟩] :=
  remove_soft_absent_id [⟨"a", 1, 2, 3, false, []⟩] "b" 9 (by simp [lookupDoc])

/-! ### The sync engine (`src/db/sync.ts`) -/

/-- A row as it crosses the Supabase wire: the change-tracking column is
`_modified` (`wireModified` here) and the tombstone column is `_deleted`
(`wireDeleted`). -/
structure WireRow where
  id : String
  createdAt : Nat
  updatedAt : Nat
  wireModified : Nat
  wireDeleted : Bool
  fields : Fields
deriving DecidableEq, Repr

/-- The renaming step `{...row, modified: row._modified, isDeleted:
row._deleted, _modified: undefined, _deleted: undefined}` used by
`pullCollection` and `handleRealtimeChange`. -/
def mapWireRow (r : WireRow) : Doc :=
  { id := r.id, createdAt := r.createdAt, updatedAt := r.updatedAt,
    modified := r.wireModified, isDeleted := r.wireDeleted, fields := r.fields }

/-- One `_sync_meta` record, keyed by collection name. -/
structure SyncMeta where
  collection : String
  lastPullTimestamp : Nat
  lastPushTimestamp : Nat
deriving DecidableEq, Repr

/-- JavaScript `v || now` on an optional-chained numeric field: `undefined`
and `0` are falsy. -/
def orNow (v : Option Nat) (now : Nat) : Nat :=
  match v with
  | none => now
  | some x => if x = 0 then now else x

/-- `syncMeta?.lastPushTimestamp || 0`. -/
def metaLastPush (meta : Option SyncMeta) : Nat :=
  match meta with
  | none => 0
  | some m => m.lastPushTimestamp

/-- `pullCollection(collection)`: the remote query result (already bounded
by `lastPullTimestamp` on the server side) is a parameter; a Postgrest error
— whether the expected table-not-found codes or any other — returns with no
local change, a non-empty batch is renamed and `bulkUpsert`-ed, and only
then is `_sync_meta` advanced to `now`. An empty batch changes nothing. -/
def pullCollection (collection : String) (s : Store) (meta : Option SyncMeta)
    (queryResult : Except String (List WireRow)) (now : Nat) :
    Store × Option SyncMeta :=
  match queryResult with
  | .error _ => (s, meta)
  | .ok data =>
    if data.isEmpty then (s, meta)
    else
      let mapped := data.map mapWireRow
      let s2 := (bulkUpsert s mapped now).1
      (s2, some { collection := collection,
                  lastPullTimestamp := now,
                  lastPushTimestamp := orNow (meta.map SyncMeta.lastPushTimestamp) now })

/-- `pushLocalChanges(collection)`: select records modified since the push
watermark, split into upserts and deletes, send both remote batches (their
outcomes are parameters: `none` is success, `some code` a Postgrest error,
including the table-not-found codes), and advance `_sync_meta` only after
both succeeded.  Offline, an empty selection, or any batch error returns
with nothing changed. -/
def pushLocalChanges (collection : String) (s : Store) (meta : Option SyncMeta)
    (isOnline : Bool) (upsertResp deleteResp : Option String) (now : Nat) :
    Store × Option SyncMeta :=
  if !isOnline then (s, meta)
  else
    let lastPush := metaLastPush meta
    let modifiedDocs := getModifiedSince s lastPush
    if modifiedDocs.isEmpty then (s, meta)
    else
      let docsToUpsert := modifiedDocs.filter (fun d => !d.isDeleted)
      let docsToDelete := modifiedDocs.filter (fun d => d.isDeleted)
      if !docsToUpsert.isEmpty && upsertResp.isSome then (s, meta)
      else if !docsToDelete.isEmpty && deleteResp.isSome then (s, meta)
      else (s, some { collection := collection,
                      lastPullTimestamp := orNow (meta.map SyncMeta.lastPullTimestamp) now,
                      lastPushTimestamp := now })

/-- A realtime `postgres_changes` payload. -/
inductive RealtimeEvent where
  | insert (new : WireRow)
  | update (new : WireRow)
  | delete (old : WireRow)
deriving DecidableEq, Repr

/-- `handleRealtimeChange`: on INSERT/UPDATE, rename the row, upsert directly
when no local copy exists, otherwise resolve the conflict and upsert the
winner; a thrown resolver error is caught (logged) and writes nothing.  On
DELETE, upsert a local tombstone. -/
def handleRealtimeChange (s : Store) (ev : RealtimeEvent) (now : Nat) : Store :=
  match ev with
  | .insert n | .update n =>
    let mapped := mapWireRow n
    match lookupDoc s mapped.id with
    | none => (upsert s mapped now).1
    | some localDoc =>
      match resolveConflict localDoc mapped with
      | .error _ => s
      | .ok res => (upsert s res.winner now).1
  | .delete o =>
    (upsert s { mapWireRow o with isDeleted := true } now).1

/-- The module-level `syncState` fields consulted by `forceSyncAll`. -/
structure SyncFlags where
  isOnline : Bool
  isSyncing : Bool
  lastSync : Nat
deriving DecidableEq, Repr

/-- `startAllSync`: returns immediately when Supabase is not configured,
otherwise syncs every collection and stamps `lastSync`.  The returned `Bool`
records whether a sync run was actually started. -/
def startAllSync (st : SyncFlags) (supabaseAvailable : Bool) (now : Nat) :
    SyncFlags × Bool :=
  if !supabaseAvailable then (st, false)
  else ({ st with lastSync := now }, true)

/-- `forceSyncAll`: returns immediately when offline; otherwise sets
`isSyncing`, runs `startAllSync`, and clears `isSyncing` in the `finally`
block.  The returned `Bool` records whether a sync run was started. -/
def forceSyncAll (st : SyncFlags) (supabaseAvailable : Bool) (now : Nat) :
    SyncFlags × Bool :=
  if !st.isOnline then (st, false)
  else
    let st1 := { st with isSyncing := true }
    let run := startAllSync st1 supabaseAvailable now
    ({ run.1 with isSyncing := false }, run.2)

/-- Reading after a `put` hit either the put document or the old record. -/
theorem lookupDoc_idbPut_cases (s : Store) (d : Doc) (i : String) (cur : Doc)
    (h : lookupDoc (idbPut s d) i = some cur) :
    cur = d ∨ lookupDoc s i = some cur := by
  rw [lookupDoc_idbPut] at h
  by_cases hdi : d.id = i
  · rw [if_pos hdi] at h
    exact Or.inl (Option.some.inj h).symm
  · rw [if_neg hdi] at h
    exact Or.inr h

/-- Any record surviving `handleRealtimeChange` is either freshly stamped
with `now` or was already stored unchanged. -/
theorem handleRealtimeChange_cases (s : Store) (ev : RealtimeEvent) (now : Nat)
    (i : String) (cur : Doc)
    (h : lookupDoc (handleRealtimeChange s ev now) i = some cur) :
    cur.modified = now ∨ lookupDoc s i = some cur := by
  cases ev with
  | insert n =>
    simp only [handleRealtimeChange] at h
    cases hlook : lookupDoc s (mapWireRow n).id with
    | none =>
      simp only [hlook] at h
      rcases lookupDoc_idbPut_cases _ _ _ _ h with rfl | hold
      · exact Or.inl rfl
      · exact Or.inr hold
    | some ld =>
      cases hres : resolveConflict ld (mapWireRow n) with
      | error e => simp only [hlook, hres] at h; exact Or.inr h
      | ok res =>
        simp only [hlook, hres] at h
        rcases lookupDoc_idbPut_cases _ _ _ _ h with rfl | hold
        · exact Or.inl rfl
        · exact Or.inr hold
  | update n =>
    simp only [handleRealtimeChange] at h
    cases hlook : lookupDoc s (mapWireRow n).id with
    | none =>
      simp only [hlook] at h
      rcases lookupDoc_idbPut_cases _ _ _ _ h with rfl | hold
      · exact Or.inl rfl
      · exact Or.inr hold
    | some ld =>
      cases hres : resolveConflict ld (mapWireRow n) with
      | error e => simp only [hlook, hres] at h; exact Or.inr h
      | ok res =>
        simp only [hlook, hres] at h
        rcases lookupDoc_idbPut_cases _ _ _ _ h with rfl | hold
        · exact Or.inl rfl
        · exact Or.inr hold
  | delete o =>
    simp only [handleRealtimeChange] at h
    rcases lookupDoc_idbPut_cases _ _ _ _ h with rfl | hold
    · exact Or.inl rfl
    · exact Or.inr hold

/-- C4: a pulled batch is stored through `bulkUpsert`, which re-stamps every
record's `modified` and `updatedAt` to the ingestion time `now`; the stored
value is `stamp now (mapWireRow row)` whatever the wire `_modified` said, and
it does not depend on the previously stored local copy (the prior store `s`
is arbitrary on the left of the equation and absent from the right), i.e. no
conflict resolution happens on the pull path. -/
theorem pullCollection_restamps (collection : String) (s : Store)
    (meta : Option SyncMeta) (data : List WireRow) (now : Nat) (row : WireRow)
    (hmem : row ∈ data) (hu : (data.map WireRow.id).Nodup) :
    lookupDoc (pullCollection collection s meta (.ok data) now).1 row.id
      = some (stamp now (mapWireRow row))
    ∧ (stamp now (mapWireRow row)).modified = now
    ∧ (∀ s' : Store,
        lookupDoc (pullCollection collection s' meta (.ok data) now).1 row.id
          = lookupDoc (pullCollection collection s meta (.ok data) now).1 row.id) := by
  have hne : data.isEmpty = false := by
    cases data with
    | nil => cases hmem
    | cons a l => rfl
  have key : ∀ s₀ : Store,
      lookupDoc (pullCollection collection s₀ meta (.ok data) now).1 row.id
        = some (stamp now (mapWireRow row)) := by
    intro s₀
    simp only [pullCollection, hne, Bool.false_eq_true, if_false, bulkUpsert]
    have hrow : stamp now (mapWireRow row) ∈ (data.map mapWireRow).map (stamp now) :=
      List.mem_map_of_mem (stamp now) (List.mem_map_of_mem mapWireRow hmem)
    have hid : (((data.map mapWireRow).map (stamp now)).map Doc.id).Nodup := by
      simpa [List.map_map, Function.comp, stamp, mapWireRow] using hu
    have := lookupDoc_foldl_idbPut_mem ((data.map mapWireRow).map (stamp now)) s₀
      (stamp now (mapWireRow row)) hrow hid
    simpa [stamp, mapWireRow] using this
  exact ⟨key s, rfl, fun s' => (key s').trans (key s).symm⟩

/-- Witness for C4 at a concrete batch: the wire timestamp 3 is replaced by
the ingestion time 9. -/
theorem pullCollection_restamps_witness :
    lookupDoc (pullCollection "chores" [] none
        (.ok [⟨"x", 1, 2, 3, false, []⟩]) 9).1 "x"
      = some ⟨"x", 1, 9, 9, false, []⟩ :=
  (pullCollection_restamps "chores" [] none [⟨"x", 1, 2, 3, false, []⟩] 9
    ⟨"x", 1, 2, 3, false, []⟩ (by decide) (by decide)).1

/-- C5: `pushLocalChanges` advances the push watermark only when every remote
batch it sent succeeded; when the upsert batch or the delete batch fails
(success/error outcomes are the `uResp`/`dResp` parameters, errors including
the table-not-found codes), the store and the `_sync_meta` record are both
left unchanged, so the next cycle selects the same modified records; and the
local store is never written by a push. -/
theorem pushLocalChanges_watermark (collection : String) (s : Store)
    (meta : Option SyncMeta) (isOnline : Bool) (uResp dResp : Option String)
    (now : Nat) :
    (((getModifiedSince s (metaLastPush meta)).filter (fun d => !d.isDeleted) ≠ []
          ∧ uResp.isSome)
        ∨ ((getModifiedSince s (metaLastPush meta)).filter (fun d => d.isDeleted) ≠ []
          ∧ dResp.isSome)
      → pushLocalChanges collection s meta isOnline uResp dResp now = (s, meta))
    ∧ ((pushLocalChanges collection s meta isOnline uResp dResp now).2 ≠ meta
      → ((getModifiedSince s (metaLastPush meta)).filter (fun d => !d.isDeleted) ≠ []
          → uResp = none)
        ∧ ((getModifiedSince s (metaLastPush meta)).filter (fun d => d.isDeleted) ≠ []
          → dResp = none))
    ∧ (pushLocalChanges collection s meta isOnline uResp dResp now).1 = s := by
  cases isOnline with
  | false =>
    refine ⟨fun _ => by simp [pushLocalChanges], fun h => absurd ?_ h, by simp [pushLocalChanges]⟩
    simp [pushLocalChanges]
  | true =>
    by_cases hempty : (getModifiedSince s (metaLastPush meta)).isEmpty
    · have h1 : (getModifiedSince s (metaLastPush meta)) = [] :=
        List.isEmpty_iff.mp hempty
      refine ⟨fun hcase => ?_, fun h => absurd ?_ h, ?_⟩
      · rcases hcase with ⟨hne, _⟩ | ⟨hne, _⟩ <;> simp [h1] at hne
      · simp [pushLocalChanges, hempty]
      · simp [pushLocalChanges, hempty]
    · by_cases hu : ((getModifiedSince s (metaLastPush meta)).filter
          (fun d => !d.isDeleted)).isEmpty = false ∧ uResp.isSome
      · refine ⟨fun _ => ?_, fun h => absurd ?_ h, ?_⟩
        · simp [pushLocalChanges, hempty, hu.1, hu.2]
        · simp [pushLocalChanges, hempty, hu.1, hu.2]
        · simp [pushLocalChanges, hempty, hu.1, hu.2]
      · by_cases hd : ((getModifiedSince s (metaLastPush meta)).filter
            (fun d => d.isDeleted)).isEmpty = false ∧ dResp.isSome
        · have hcond : (!((getModifiedSince s (metaLastPush meta)).filter
              (fun d => !d.isDeleted)).isEmpty && uResp.isSome) = false := by
            rcases Decidable.not_and_iff_or_not.mp hu with h | h
            · simp only [Bool.and_eq_false_iff, Bool.not_eq_true']
              left
              cases hh : ((getModifiedSince s (metaLastPush meta)).filter
                  (fun d => !d.isDeleted)).isEmpty
              · exact absurd rfl (hh ▸ h)
              · rfl
            · simp only [Bool.and_eq_false_iff]
              right
              simpa using h
          refine ⟨fun _ => ?_, fun h => absurd ?_ h, ?_⟩
          · simp [pushLocalChanges, hempty, hcond, hd.1, hd.2]
          · simp [pushLocalChanges, hempty, hcond, hd.1, hd.2]
          · simp [pushLocalChanges, hempty, hcond, hd.1, hd.2]
        · -- both batches succeeded (or were not sent): the watermark advances
          refine ⟨fun hcase => ?_, fun _ => ⟨fun hne => ?_, fun hne => ?_⟩, ?_⟩
          · rcases hcase with ⟨hne, hsome⟩ | ⟨hne, hsome⟩
            · exact absurd ⟨by simpa [List.isEmpty_iff] using hne, hsome⟩ hu
            · exact absurd ⟨by simpa [List.isEmpty_iff] using hne, hsome⟩ hd
          · rcases Decidable.not_and_iff_or_not.mp hu with h | h
            · exact absurd (by simpa [List.isEmpty_iff] using hne) (by simpa using h)
            · exact Option.not_isSome_iff_eq_none.mp (by simpa using h)
          · rcases Decidable.not_and_iff_or_not.mp hd with h | h
            · exact absurd (by simpa [List.isEmpty_iff] using hne) (by simpa using h)
            · exact Option.not_isSome_iff_eq_none.mp (by simpa using h)
          · cases h1 : (!((getModifiedSince s (metaLastPush meta)).filter
                (fun d => !d.isDeleted)).isEmpty && uResp.isSome) <;>
              cases h2 : (!((getModifiedSince s (metaLastPush meta)).filter
                (fun d => d.isDeleted)).isEmpty && dResp.isSome) <;>
              simp [pushLocalChanges, hempty, h1, h2]

/-- Witness for C5: a failing upsert batch (table not provisioned) leaves the
sync metadata absent and the store unchanged. -/
theorem pushLocalChanges_watermark_witness :
    pushLocalChanges "chores" [⟨"a", 0, 0, 5, false, []⟩] none true
        (some "42P01") none 9
      = ([⟨"a", 0, 0, 5, false, []⟩], none) :=
  (pushLocalChanges_watermark "chores" [⟨"a", 0, 0, 5, false, []⟩] none true
    (some "42P01") none 9).1 (Or.inl ⟨by decide, by decide⟩)

/-- C6: `modified` never moves backward.  If a record is stored under `i` and
the clock reads `now` at or after that record's `modified`, then after any of
the writing operations — `upsert`, `bulkUpsert`, soft `remove`, or the
realtime conflict-resolution path — the record stored under `i` has
`modified` at least the old value. -/
theorem modified_never_backward (s : Store) (i : String) (prev : Doc) (now : Nat)
    (hprev : lookupDoc s i = some prev) (hclock : prev.modified ≤ now) :
    (∀ d cur, lookupDoc (upsert s d now).1 i = some cur
      → prev.modified ≤ cur.modified)
    ∧ (∀ ds cur, lookupDoc (bulkUpsert s ds now).1 i = some cur
      → prev.modified ≤ cur.modified)
    ∧ (∀ cur, lookupDoc (remove s i false now) i = some cur
      → prev.modified ≤ cur.modified)
    ∧ (∀ ev cur, lookupDoc (handleRealtimeChange s ev now) i = some cur
      → prev.modified ≤ cur.modified) := by
  have hold : ∀ cur : Doc, lookupDoc s i = some cur → prev.modified ≤ cur.modified := by
    intro cur h
    rw [hprev] at h
    exact (Option.some.inj h) ▸ Nat.le_refl _
  refine ⟨?_, ?_, ?_, ?_⟩
  · intro d cur h
    rcases lookupDoc_idbPut_cases _ _ _ _ h with rfl | hs
    · exact hclock
    · exact hold cur hs
  · intro ds cur h
    rcases lookupDoc_foldl_idbPut_cases _ _ _ _ h with hmem | hs
    · rcases List.mem_map.mp hmem with ⟨orig, _, rfl⟩
      exact hclock
    · exact hold cur hs
  · intro cur h
    unfold remove at h
    rw [hprev] at h
    simp only [Bool.false_eq_true, if_false] at h
    rcases lookupDoc_idbPut_cases _ _ _ _ h with rfl | hs
    · exact hclock
    · exact hold cur hs
  · intro ev cur h
    rcases handleRealtimeChange_cases _ _ _ _ _ h with hnow | hs
    · exact hnow ▸ hclock
    · exact hold cur hs

/-- Witness for C6: upserting a stale copy at time 7 over a record with
`modified = 5` leaves `modified = 7 ≥ 5`. -/
theorem modified_never_backward_witness :
    5 ≤ (⟨"a", 0, 7, 7, false, []⟩ : Doc).modified :=
  (modified_never_backward [⟨"a", 0, 0, 5, false, []⟩] "a" ⟨"a", 0, 0, 5, false, []⟩ 7
    (by decide) (by decide)).1 ⟨"a", 0, 0, 1, false, []⟩ ⟨"a", 0, 7, 7, false, []⟩
    (by decide)

/-- C7 counterexample: with a forced sync already in flight
(`isSyncing = true`) and the client online, `forceSyncAll` starts another
sync run anyway — the syncing-in-progress flag is set but never consulted,
refuting the claimed guard. -/
theorem forceSyncAll_ignores_isSyncing :
    (forceSyncAll ⟨true, true, 0⟩ true 1).2 = true := by decide

/-- C7 amended: `forceSyncAll` is guarded only by the online flag: when
`isOnline` is false it returns without starting a sync; when online it starts
a sync run (whenever Supabase is configured) regardless of `isSyncing`,
which is set for the duration of the run and cleared afterwards. -/
theorem forceSyncAll_guards (st : SyncFlags) (supabaseAvailable : Bool) (now : Nat) :
    (st.isOnline = false → forceSyncAll st supabaseAvailable now = (st, false))
    ∧ (st.isOnline = true
      → (forceSyncAll st supabaseAvailable now).2 = supabaseAvailable
        ∧ (forceSyncAll st supabaseAvailable now).1.isSyncing = false) := by
  cases supabaseAvailable <;> cases hst : st.isOnline <;>
    simp [forceSyncAll, startAllSync, hst]

/-- Witness for C7's amended claim at concrete states. -/
theorem forceSyncAll_guards_witness :
    forceSyncAll ⟨false, false, 0⟩ true 5 = (⟨false, false, 0⟩, false)
    ∧ (forceSyncAll ⟨true, true, 0⟩ true 5).2 = true :=
  ⟨(forceSyncAll_guards ⟨false, false, 0⟩ true 5).1 rfl,
    ((forceSyncAll_guards ⟨true, true, 0⟩ true 5).2 rfl).1⟩

/-! ### `mergeDocuments` (`conflict.ts`) and the JS `Map` it builds -/

/-- A JS `Map<string, T>` as an insertion-ordered association list:
`set` on an existing key replaces in place, otherwise appends; `values()`
iterates in insertion order. -/
abbrev DocMap := List (String × Doc)

/-- `map.get(k)`. -/
def mapGet (m : DocMap) (k : String) : Option Doc :=
  match m with
  | [] => none
  | p :: rest => if p.1 = k then some p.2 else mapGet rest k

/-- `map.set(k, v)`. -/
def mapSet (m : DocMap) (k : String) (v : Doc) : DocMap :=
  if m.any (fun p => p.1 == k) then
    m.map (fun p => if p.1 = k then (k, v) else p)
  else
    m ++ [(k, v)]

/-- The second loop of `mergeDocuments`: fold the remote documents into the
map, resolving against the present entry; a resolver throw propagates. -/
def mergeRemote (m : DocMap) : List Doc → Except String DocMap
  | [] => .ok m
  | rd :: rest =>
    match mapGet m rd.id with
    | none => mergeRemote (mapSet m rd.id rd) rest
    | some localDoc =>
      match resolveConflict localDoc rd with
      | .error e => .error e
      | .ok res => mergeRemote (mapSet m res.winner.id res.winner) rest

/-- `mergeDocuments(local, remote)`: seed the map with the local list, fold
in the remote list resolving conflicts, return `Array.from(map.values())`. -/
def mergeDocuments (localList remoteList : List Doc) : Except String (List Doc) :=
  let m0 := localList.foldl (fun m d => mapSet m d.id d) ([] : DocMap)
  (mergeRemote m0 remoteList).map (fun m => m.map Prod.snd)

/-- `get` distributes over append. -/
theorem mapGet_append (a b : DocMap) (k : String) :
    mapGet (a ++ b) k = (mapGet a k).or (mapGet b k) := by
  induction a with
  | nil => simp [mapGet]
  | cons p rest ih =>
    by_cases h : p.1 = k <;> simp [mapGet, h, ih]

/-- `any`-membership by key agrees with `get` success. -/
theorem any_mapKey_eq_isSome (m : DocMap) (k : String) :
    (m.any (fun p => p.1 == k)) = (mapGet m k).isSome := by
  induction m with
  | nil => simp [mapGet]
  | cons p rest ih =>
    by_cases h : p.1 = k <;> simp [mapGet, h, ih]

/-- In-place replacement of key `k` does not affect other keys. -/
theorem mapGet_map_replace_ne (m : DocMap) (k : String) (v : Doc) (i : String)
    (hki : k ≠ i) :
    mapGet (m.map (fun p => if p.1 = k then (k, v) else p)) i = mapGet m i := by
  induction m with
  | nil => rfl
  | cons p rest ih =>
    by_cases hp : p.1 = k
    · have hpi : ¬ p.1 = i := fun hpi => hki (hp ▸ hpi)
      simp [mapGet, hp, hpi, hki, ih]
    · by_cases hpi : p.1 = i
      · have hik : ¬ i = k := fun h => hki h.symm
        simp [mapGet, hp, hpi, hik]
      · simp [mapGet, hp, hpi, ih]

/-- Reading after a `set`: the set value under its key, others unchanged. -/
theorem mapGet_mapSet (m : DocMap) (k : String) (v : Doc) (i : String) :
    mapGet (mapSet m k v) i = if k = i then some v else mapGet m i := by
  unfold mapSet
  by_cases hmem : m.any (fun p => p.1 == k)
  · rw [if_pos hmem]
    by_cases hki : k = i
    · subst hki
      rw [any_mapKey_eq_isSome] at hmem
      rw [if_pos rfl]
      induction m with
      | nil => simp [mapGet] at hmem
      | cons p rest ih =>
        by_cases hp : p.1 = k
        · simp [mapGet, hp]
        · have : (mapGet rest k).isSome := by
            simpa [mapGet, hp] using hmem
          simp [mapGet, hp, ih this]
    · rw [if_neg hki]
      exact mapGet_map_replace_ne m k v i hki
  · rw [if_neg hmem, mapGet_append]
    by_cases hki : k = i
    · subst hki
      have hnone : mapGet m k = none := by
        rw [any_mapKey_eq_isSome] at hmem
        exact Option.not_isSome_iff_eq_none.mp (by simpa using hmem)
      simp [mapGet, hnone]
    · simp [mapGet, hki]

/-- The map never has two entries with the same key. -/
def KeysNodup (m : DocMap) : Prop := (m.map Prod.fst).Nodup

/-- Every entry's value carries the key as its `id` — the invariant that
makes `resolveConflict` inside `mergeDocuments` total. -/
def IdKeyed (m : DocMap) : Prop := ∀ p ∈ m, p.2.id = p.1

/-- `set` preserves key uniqueness. -/
theorem keysNodup_mapSet (m : DocMap) (k : String) (v : Doc)
    (h : KeysNodup m) : KeysNodup (mapSet m k v) := by
  unfold mapSet
  by_cases hmem : m.any (fun p => p.1 == k)
  · rw [if_pos hmem]
    have hkeys : (m.map (fun p => if p.1 = k then (k, v) else p)).map Prod.fst
        = m.map Prod.fst := by
      rw [List.map_map]
      refine List.map_congr_left (fun p _ => ?_)
      by_cases hp : p.1 = k <;> simp [hp]
    unfold KeysNodup
    rw [hkeys]
    exact h
  · rw [if_neg hmem]
    unfold KeysNodup
    rw [List.map_append]
    refine List.Nodup.append h (by simp) ?_
    intro a ha hb
    simp only [List.map_cons, List.map_nil, List.mem_singleton] at hb
    subst hb
    rw [any_mapKey_eq_isSome] at hmem
    have hnone : mapGet m a = none :=
      Option.not_isSome_iff_eq_none.mp (by simpa using hmem)
    rcases List.mem_map.mp ha with ⟨p, hp, rfl⟩
    have : (mapGet m p.1).isSome := by
      rw [← any_mapKey_eq_isSome]
      exact List.any_eq_true.mpr ⟨p, hp, by simp⟩
    rw [hnone] at this
    simp at this

/-- `set` with a value keyed by its own id preserves the id invariant. -/
theorem idKeyed_mapSet (m : DocMap) (k : String) (v : Doc)
    (h : IdKeyed m) (hv : v.id = k) : IdKeyed (mapSet m k v) := by
  unfold mapSet
  by_cases hmem : m.any (fun p => p.1 == k)
  · rw [if_pos hmem]
    intro p hp
    rcases List.mem_map.mp hp with ⟨q, hq, rfl⟩
    by_cases hqk : q.1 = k <;> simp [hqk, hv, h q hq]
  · rw [if_neg hmem]
    intro p hp
    rcases List.mem_append.mp hp with hp | hp
    · exact h p hp
    · simp only [List.mem_singleton] at hp
      subst hp
      exact hv

/-- Replacement targeting an absent key is the identity. -/
theorem map_replace_absent (rest : DocMap) (k : String) (v : Doc)
    (hrest : ∀ q ∈ rest, q.1 ≠ k) :
    rest.map (fun q => if q.1 = k then (k, v) else q) = rest := by
  induction rest with
  | nil => rfl
  | cons q t ih =>
    rw [List.map_cons, if_neg (hrest q (by simp)),
      ih (fun x hx => hrest x (by simp [hx]))]

/-- Setting a key to the value it already holds is a no-op (keys unique). -/
theorem mapSet_self (m : DocMap) (k : String) (v : Doc)
    (hnodup : KeysNodup m) (h : mapGet m k = some v) : mapSet m k v = m := by
  have hmem : m.any (fun p => p.1 == k) := by
    rw [any_mapKey_eq_isSome, h]; rfl
  unfold mapSet
  rw [if_pos hmem]
  clear hmem
  induction m with
  | nil => simp [mapGet] at h
  | cons p rest ih =>
    have hn : (p.1 :: rest.map Prod.fst).Nodup := by
      simpa [KeysNodup] using hnodup
    by_cases hp : p.1 = k
    · have hv : p.2 = v := by
        simpa [mapGet, hp] using h
      have hrest : ∀ q ∈ rest, q.1 ≠ k := by
        intro q hq hqk
        exact (List.nodup_cons.mp hn).1
          (by rw [hp, ← hqk]; exact List.mem_map_of_mem Prod.fst hq)
      rw [List.map_cons, if_pos hp, map_replace_absent rest k v hrest]
      congr 1
      rw [← hp, ← hv]
    · have hget : mapGet rest k = some v := by
        simpa [mapGet, hp] using h
      have hn2 : KeysNodup rest := (List.nodup_cons.mp hn).2
      rw [List.map_cons, if_neg hp, ih hn2 hget]

/-! ### Stability of the tie-merge and of conflict resolution

These lemmas say that resolving a winner against the same remote document
again reproduces the winner — the key to idempotence of `mergeDocuments`.
They need the remote document's field keys to be duplicate-free, which is
automatic for a real JS object. -/

/-- With duplicate-free keys, lookup of a member's key yields its value. -/
theorem lookupField_mem_nodup (f : Fields) (p : String × String)
    (hf : (f.map Prod.fst).Nodup) (hp : p ∈ f) :
    lookupField f p.1 = some p.2 := by
  induction f with
  | nil => cases hp
  | cons q rest ih =>
    have hn : (q.1 :: rest.map Prod.fst).Nodup := by simpa using hf
    rcases List.mem_cons.mp hp with rfl | hrest
    · simp [lookupField]
    · have hq : ¬ q.1 = p.1 := by
        intro hq
        exact (List.nodup_cons.mp hn).1
          (by rw [hq]; exact List.mem_map_of_mem Prod.fst hrest)
      simp [lookupField, hq, ih (List.nodup_cons.mp hn).2 hrest]

/-- The override step of a spread keeps each entry's key. -/
theorem override_key (g : Fields) (p : String × String) :
    ((match lookupField g p.1 with
      | some v => (p.1, v) | none => p) : String × String).1 = p.1 := by
  cases hl : lookupField g p.1 <;> simp [hl]

/-- The override step of a spread is idempotent. -/
theorem override_idem (g : Fields) (p : String × String) :
    (match lookupField g ((match lookupField g p.1 with
        | some v => (p.1, v) | none => p) : String × String).1 with
      | some v => (((match lookupField g p.1 with
          | some v => (p.1, v) | none => p) : String × String).1, v)
      | none => (match lookupField g p.1 with
          | some v => (p.1, v) | none => p))
      = (match lookupField g p.1 with | some v => (p.1, v) | none => p) := by
  cases hl : lookupField g p.1 <;> simp [hl]

/-- Spreading a duplicate-free object over itself is the identity. -/
theorem spreadFields_self (f : Fields) (hf : (f.map Prod.fst).Nodup) :
    spreadFields f f = f := by
  unfold spreadFields
  have hfilter : f.filter (fun p => !(f.any (fun q => q.1 == p.1))) = [] := by
    rw [List.filter_eq_nil_iff]
    intro p hp
    simp only [Bool.not_eq_true', Bool.not_eq_false]
    exact List.any_eq_true.mpr ⟨p, hp, by simp⟩
  have hmap : f.map (fun p => match lookupField f p.1 with
      | some v => (p.1, v) | none => p) = f := by
    refine (List.map_congr_left fun p hp => ?_).trans (List.map_id f)
    rw [lookupField_mem_nodup f p hf hp]
    exact rfl
  rw [hfilter, hmap, List.append_nil]

/-- Spreading over `g` a second time changes nothing (keys of `g` unique). -/
theorem spreadFields_idem (f g : Fields) (hg : (g.map Prod.fst).Nodup) :
    spreadFields (spreadFields f g) g = spreadFields f g := by
  conv_lhs => rw [spreadFields]
  have hfilter : g.filter (fun p => !((spreadFields f g).any (fun q => q.1 == p.1))) = [] := by
    rw [List.filter_eq_nil_iff]
    intro p hp
    simp only [Bool.not_eq_true', Bool.not_eq_false]
    unfold spreadFields
    rw [List.any_append]
    cases hf : f.any (fun q => q.1 == p.1) with
    | true =>
      rcases List.any_eq_true.mp hf with ⟨q, hq, hq1⟩
      refine Bool.or_eq_true_iff.mpr (Or.inl (List.any_eq_true.mpr
        ⟨(match lookupField g q.1 with | some v => (q.1, v) | none => q),
          List.mem_map_of_mem _ hq, ?_⟩))
      rw [override_key]
      exact hq1
    | false =>
      refine Bool.or_eq_true_iff.mpr (Or.inr (List.any_eq_true.mpr ⟨p, ?_, by simp⟩))
      exact List.mem_filter.mpr ⟨hp, by simp [hf]⟩
  have hmap : (spreadFields f g).map (fun p => match lookupField g p.1 with
      | some v => (p.1, v) | none => p) = spreadFields f g := by
    unfold spreadFields
    rw [List.map_append]
    have hA : (f.map (fun p => match lookupField g p.1 with
        | some v => (p.1, v) | none => p)).map (fun p => match lookupField g p.1 with
        | some v => (p.1, v) | none => p)
        = f.map (fun p => match lookupField g p.1 with
        | some v => (p.1, v) | none => p) := by
      rw [List.map_map]
      exact List.map_congr_left fun p _ => override_idem g p
    have hB : (g.filter (fun p => !(f.any (fun q => q.1 == p.1)))).map
        (fun p => match lookupField g p.1 with | some v => (p.1, v) | none => p)
        = g.filter (fun p => !(f.any (fun q => q.1 == p.1))) := by
      refine (List.map_congr_left fun p hp => ?_).trans (List.map_id _)
      have hpg : p ∈ g := (List.mem_filter.mp hp).1
      rw [lookupField_mem_nodup g p hg hpg]
      exact rfl
    rw [hA, hB]
  rw [hfilter, hmap, List.append_nil]

/-- Merging a duplicate-free document with itself on a tie reproduces it. -/
theorem mergeTie_self (r : Doc) (hr : (r.fields.map Prod.fst).Nodup) :
    mergeTie r r = r := by
  simp [mergeTie, docSpread, spreadFields_self r.fields hr]

/-- Re-merging a tie winner against the same remote document reproduces the
winner. -/
theorem mergeTie_stable (l r : Doc) (hr : (r.fields.map Prod.fst).Nodup) :
    mergeTie (mergeTie l r) r = mergeTie l r := by
  simp only [mergeTie, docSpread]
  refine Doc.mk.injEq _ _ _ _ _ _ _ _ _ _ _ _ ▸ ?_
  simp [spreadFields_idem l.fields r.fields hr, max_assoc]

/-- The winner of a successful resolution always carries the remote id. -/
theorem resolveConflict_winner_id (l r : Doc) (res : ResolveResult)
    (h : resolveConflict l r = .ok res) : res.winner.id = r.id := by
  unfold resolveConflict at h
  by_cases hid : l.id = r.id
  · rw [if_neg (by simp [hid])] at h
    split at h
    · exact (Except.ok.inj h) ▸ hid
    · split at h
      · exact (Except.ok.inj h) ▸ rfl
      · exact (Except.ok.inj h) ▸ rfl
  · rw [if_pos (by simpa using hid)] at h
    cases h

/-- With equal ids, `resolveConflict` never throws. -/
theorem resolveConflict_ne_error (l r : Doc) (hid : l.id = r.id) (e : String) :
    resolveConflict l r ≠ .error e := by
  intro h
  rcases Nat.lt_trichotomy r.modified l.modified with hlt | heq | hgt
  · simp [resolveConflict, hid, hlt] at h
  · simp [resolveConflict, hid, heq] at h
  · simp [resolveConflict, hid, hgt, Nat.not_lt.mpr (Nat.le_of_lt hgt)] at h

/-- Stability of conflict resolution: resolving the winner against the same
remote document succeeds and returns the winner unchanged. -/
theorem resolveConflict_stable (l r : Doc) (res : ResolveResult)
    (hid : l.id = r.id) (hr : (r.fields.map Prod.fst).Nodup)
    (h : resolveConflict l r = .ok res) :
    ∃ src2, resolveConflict res.winner r = .ok ⟨res.winner, src2⟩ := by
  unfold resolveConflict at h
  rw [if_neg (by simp [hid])] at h
  by_cases hlt : r.modified < l.modified
  · rw [if_pos hlt] at h
    obtain rfl := Except.ok.inj h
    exact ⟨.localSrc, by simp [resolveConflict, hid, hlt]⟩
  · rw [if_neg hlt] at h
    by_cases hgt : l.modified < r.modified
    · rw [if_pos hgt] at h
      obtain rfl := Except.ok.inj h
      exact ⟨.mergedSrc, by simp [resolveConflict, mergeTie_self r hr]⟩
    · rw [if_neg hgt] at h
      obtain rfl := Except.ok.inj h
      refine ⟨.mergedSrc, ?_⟩
      have hwid : (mergeTie l r).id = r.id := rfl
      have hwm : (mergeTie l r).modified = r.modified := rfl
      simp [resolveConflict, hwid, hwm, mergeTie_stable l r hr]

/-! ### The `mergeRemote` fold -/

/-- A value read out of an id-keyed map carries the key as id. -/
theorem mapGet_idKeyed (m : DocMap) (k : String) (d : Doc)
    (hk : IdKeyed m) (h : mapGet m k = some d) : d.id = k := by
  induction m with
  | nil => cases h
  | cons p rest ih =>
    by_cases hp : p.1 = k
    · have : p.2 = d := by simpa [mapGet, hp] using h
      exact this ▸ hp ▸ hk p (by simp)
    · exact ih (fun q hq => hk q (by simp [hq])) (by simpa [mapGet, hp] using h)

/-- Folding the remote list never throws when the map is id-keyed. -/
theorem mergeRemote_ok (rs : List Doc) (m : DocMap) (hk : IdKeyed m) :
    ∃ m', mergeRemote m rs = .ok m' := by
  induction rs generalizing m with
  | nil => exact ⟨m, rfl⟩
  | cons rd rest ih =>
    cases h0 : mapGet m rd.id with
    | none =>
      obtain ⟨m', hm'⟩ := ih (mapSet m rd.id rd) (idKeyed_mapSet m rd.id rd hk rfl)
      exact ⟨m', by simp [mergeRemote, h0, hm']⟩
    | some ld =>
      have hid : ld.id = rd.id := mapGet_idKeyed m rd.id ld hk h0
      cases hres : resolveConflict ld rd with
      | error e => exact absurd hres (resolveConflict_ne_error ld rd hid e)
      | ok res =>
        obtain ⟨m', hm'⟩ := ih (mapSet m res.winner.id res.winner)
          (idKeyed_mapSet m res.winner.id res.winner hk rfl)
        exact ⟨m', by simp [mergeRemote, h0, hres, hm']⟩

/-- The fold preserves key uniqueness and id-keyedness. -/
theorem mergeRemote_preserves (rs : List Doc) (m m' : DocMap)
    (hn : KeysNodup m) (hk : IdKeyed m) (h : mergeRemote m rs = .ok m') :
    KeysNodup m' ∧ IdKeyed m' := by
  induction rs generalizing m with
  | nil => exact Except.ok.inj h ▸ ⟨hn, hk⟩
  | cons rd rest ih =>
    cases h0 : mapGet m rd.id with
    | none =>
      simp only [mergeRemote, h0] at h
      exact ih (mapSet m rd.id rd) (keysNodup_mapSet m rd.id rd hn)
        (idKeyed_mapSet m rd.id rd hk rfl) h
    | some ld =>
      cases hres : resolveConflict ld rd with
      | error e =>
        simp only [mergeRemote, h0, hres] at h
        exact Except.noConfusion h
      | ok res =>
        simp only [mergeRemote, h0, hres] at h
        exact ih (mapSet m res.winner.id res.winner)
          (keysNodup_mapSet m res.winner.id res.winner hn)
          (idKeyed_mapSet m res.winner.id res.winner hk rfl) h

/-- The fold leaves keys outside the remote id set untouched. -/
theorem mergeRemote_frame (rs : List Doc) (m m' : DocMap) (k : String)
    (hout : ∀ rd ∈ rs, rd.id ≠ k) (h : mergeRemote m rs = .ok m') :
    mapGet m' k = mapGet m k := by
  induction rs generalizing m with
  | nil => exact Except.ok.inj h ▸ rfl
  | cons rd rest ih =>
    have hne : rd.id ≠ k := hout rd (by simp)
    cases h0 : mapGet m rd.id with
    | none =>
      simp only [mergeRemote, h0] at h
      rw [ih (mapSet m rd.id rd) (fun x hx => hout x (by simp [hx])) h,
        mapGet_mapSet, if_neg hne]
    | some ld =>
      cases hres : resolveConflict ld rd with
      | error e =>
        simp only [mergeRemote, h0, hres] at h
        exact Except.noConfusion h
      | ok res =>
        simp only [mergeRemote, h0, hres] at h
        have hwid : res.winner.id = rd.id := resolveConflict_winner_id ld rd res hres
        rw [ih (mapSet m res.winner.id res.winner) (fun x hx => hout x (by simp [hx])) h,
          mapGet_mapSet, if_neg (hwid ▸ hne)]

/-- After the fold, a key is present iff it was present before or belongs to
a remote document. -/
theorem mergeRemote_isSome (rs : List Doc) (m m' : DocMap) (k : String)
    (h : mergeRemote m rs = .ok m') :
    (mapGet m' k).isSome ↔ (mapGet m k).isSome ∨ k ∈ rs.map Doc.id := by
  induction rs generalizing m with
  | nil =>
    rw [Except.ok.inj h]
    simp
  | cons rd rest ih =>
    cases h0 : mapGet m rd.id with
    | none =>
      simp only [mergeRemote, h0] at h
      rw [ih (mapSet m rd.id rd) h]
      by_cases hk : rd.id = k
      · subst hk
        simp [mapGet_mapSet]
      · simp [mapGet_mapSet, hk, Ne.symm hk]
    | some ld =>
      cases hres : resolveConflict ld rd with
      | error e =>
        simp only [mergeRemote, h0, hres] at h
        exact Except.noConfusion h
      | ok res =>
        simp only [mergeRemote, h0, hres] at h
        have hwid : res.winner.id = rd.id := resolveConflict_winner_id ld rd res hres
        rw [ih (mapSet m res.winner.id res.winner) h]
        by_cases hk : rd.id = k
        · subst hk
          simp [mapGet_mapSet, hwid, h0]
        · simp [mapGet_mapSet, hwid, hk, Ne.symm hk]

/-- Running the fold a second time from its own result changes nothing. -/
theorem mergeRemote_idem (rs : List Doc) (m m' : DocMap)
    (hn : KeysNodup m) (hk : IdKeyed m)
    (hrs : (rs.map Doc.id).Nodup)
    (hwf : ∀ d ∈ rs, (d.fields.map Prod.fst).Nodup)
    (h : mergeRemote m rs = .ok m') :
    mergeRemote m' rs = .ok m' := by
  induction rs generalizing m with
  | nil => exact Except.ok.inj h ▸ rfl
  | cons rd rest ih =>
    obtain ⟨hout0, hrest⟩ : (∀ x ∈ rest, ¬ x.id = rd.id) ∧ (rest.map Doc.id).Nodup := by
      simpa using hrs
    have hout : ∀ x ∈ rest, x.id ≠ rd.id := hout0
    have hwfrd : (rd.fields.map Prod.fst).Nodup := hwf rd (by simp)
    have hwfrest : ∀ d ∈ rest, (d.fields.map Prod.fst).Nodup :=
      fun d hd => hwf d (by simp [hd])
    cases h0 : mapGet m rd.id with
    | none =>
      simp only [mergeRemote, h0] at h
      have hn1 := keysNodup_mapSet m rd.id rd hn
      have hk1 := idKeyed_mapSet m rd.id rd hk rfl
      have hm'rd : mapGet m' rd.id = some rd := by
        rw [mergeRemote_frame rest _ m' rd.id hout h, mapGet_mapSet, if_pos rfl]
      have hself : resolveConflict rd rd = .ok ⟨rd, .mergedSrc⟩ := by
        simp [resolveConflict, mergeTie_self rd hwfrd]
      have hnodup' := (mergeRemote_preserves rest _ m' hn1 hk1 h).1
      simp only [mergeRemote, hm'rd, hself]
      rw [mapSet_self m' rd.id rd hnodup' hm'rd]
      exact ih (mapSet m rd.id rd) hn1 hk1 hrest hwfrest h
    | some ld =>
      have hid : ld.id = rd.id := mapGet_idKeyed m rd.id ld hk h0
      cases hres : resolveConflict ld rd with
      | error e =>
        simp only [mergeRemote, h0, hres] at h
        exact Except.noConfusion h
      | ok res =>
        simp only [mergeRemote, h0, hres] at h
        have hwid : res.winner.id = rd.id := resolveConflict_winner_id ld rd res hres
        have hn1 := keysNodup_mapSet m res.winner.id res.winner hn
        have hk1 := idKeyed_mapSet m res.winner.id res.winner hk rfl
        have hm'rd : mapGet m' rd.id = some res.winner := by
          rw [mergeRemote_frame rest _ m' rd.id hout h, ← hwid,
            mapGet_mapSet, if_pos rfl]
        obtain ⟨src2, hstab⟩ := resolveConflict_stable ld rd res hid hwfrd hres
        have hnodup' := (mergeRemote_preserves rest _ m' hn1 hk1 h).1
        simp only [mergeRemote, hm'rd, hstab]
        rw [show (⟨res.winner, src2⟩ : ResolveResult).winner = res.winner from rfl,
          hwid, mapSet_self m' rd.id res.winner hnodup' hm'rd]
        exact ih (mapSet m res.winner.id res.winner) hn1 hk1 hrest hwfrest h

/-! ### Seeding the map from the local list, and claim C8 -/

/-- The seeding fold preserves key uniqueness and id-keyedness. -/
theorem seed_preserves (ds : List Doc) (m : DocMap)
    (hn : KeysNodup m) (hk : IdKeyed m) :
    KeysNodup (ds.foldl (fun m d => mapSet m d.id d) m)
    ∧ IdKeyed (ds.foldl (fun m d => mapSet m d.id d) m) := by
  induction ds generalizing m with
  | nil => exact ⟨hn, hk⟩
  | cons d rest ih =>
    exact ih (mapSet m d.id d) (keysNodup_mapSet m d.id d hn)
      (idKeyed_mapSet m d.id d hk rfl)

/-- A key is present after seeding iff it was present before or is one of
the seeded ids. -/
theorem seed_isSome (ds : List Doc) (m : DocMap) (k : String) :
    (mapGet (ds.foldl (fun m d => mapSet m d.id d) m) k).isSome
      ↔ (mapGet m k).isSome ∨ k ∈ ds.map Doc.id := by
  induction ds generalizing m with
  | nil => simp
  | cons d rest ih =>
    rw [List.foldl_cons, ih]
    by_cases hk : d.id = k
    · subst hk
      simp [mapGet_mapSet]
    · have hk2 : ¬ k = d.id := fun h => hk h.symm
      simp [mapGet_mapSet, hk, hk2, or_assoc]

/-- Seeding documents with fresh, duplicate-free ids appends them in order. -/
theorem seed_rebuild (ds : List Doc) (acc : DocMap)
    (hids : (ds.map Doc.id).Nodup)
    (hacc : ∀ d ∈ ds, mapGet acc d.id = none) :
    ds.foldl (fun m d => mapSet m d.id d) acc = acc ++ ds.map (fun d => (d.id, d)) := by
  induction ds generalizing acc with
  | nil => simp
  | cons d rest ih =>
    obtain ⟨hdrest, hrest⟩ : (∀ x ∈ rest, ¬ x.id = d.id) ∧ (rest.map Doc.id).Nodup := by
      simpa using hids
    have hnotmem : ¬ acc.any (fun p => p.1 == d.id) = true := by
      rw [any_mapKey_eq_isSome, hacc d (by simp)]
      simp
    have hset : mapSet acc d.id d = acc ++ [(d.id, d)] := by
      unfold mapSet
      rw [if_neg hnotmem]
    have hacc2 : ∀ x ∈ rest, mapGet (acc ++ [(d.id, d)]) x.id = none := by
      intro x hx
      have hxd : ¬ d.id = x.id := fun h => hdrest x hx h.symm
      rw [mapGet_append, hacc x (by simp [hx])]
      simp [mapGet, hxd]
    rw [List.foldl_cons, hset, ih (acc ++ [(d.id, d)]) hrest hacc2]
    simp

/-- Rebuilding an id-keyed map from its values reproduces the map. -/
theorem idKeyed_values_rebuild (m : DocMap) (hk : IdKeyed m) :
    (m.map Prod.snd).map (fun d => (d.id, d)) = m := by
  rw [List.map_map]
  refine (List.map_congr_left fun p hp => ?_).trans (List.map_id m)
  show ((p.2).id, p.2) = id p
  rw [hk p hp]
  exact rfl

/-- The values of an id-keyed map carry exactly the keys as ids. -/
theorem idKeyed_values_ids (m : DocMap) (hk : IdKeyed m) :
    (m.map Prod.snd).map Doc.id = m.map Prod.fst := by
  rw [List.map_map]
  exact List.map_congr_left fun p hp => hk p hp

/-- Key presence in terms of the entry list. -/
theorem isSome_iff_exists_key (m : DocMap) (k : String) :
    (mapGet m k).isSome ↔ ∃ p ∈ m, p.1 = k := by
  induction m with
  | nil => simp [mapGet]
  | cons p rest ih =>
    by_cases hp : p.1 = k
    · constructor
      · intro _
        exact ⟨p, List.mem_cons_self p rest, hp⟩
      · intro _
        simp [mapGet, hp]
    · rw [show mapGet (p :: rest) k = mapGet rest k from by simp [mapGet, hp], ih]
      constructor
      · rintro ⟨q, hq, rfl⟩
        exact ⟨q, List.mem_cons_of_mem p hq, rfl⟩
      · rintro ⟨q, hq, rfl⟩
        rcases List.mem_cons.mp hq with rfl | hq2
        · exact absurd rfl hp
        · exact ⟨q, hq2, rfl⟩

/-- C8: `mergeDocuments` builds the union of both lists keyed by id —
an id occurs in the output exactly when it occurs in the local or the remote
input — resolving each overlapping id via `resolveConflict`, and it is
idempotent: merging the merged output against the same remote list again
succeeds and returns the very same list of records.  Inputs have unique ids
per list, and the remote documents' field keys are duplicate-free, as any
real JS object's are. -/
theorem mergeDocuments_idempotent (localList remoteList : List Doc)
    (hl : (localList.map Doc.id).Nodup) (hr : (remoteList.map Doc.id).Nodup)
    (hwf : ∀ d ∈ remoteList, (d.fields.map Prod.fst).Nodup) :
    ∃ out, mergeDocuments localList remoteList = .ok out
      ∧ mergeDocuments out remoteList = .ok out
      ∧ ∀ i, ((∃ d ∈ out, d.id = i)
          ↔ (∃ d ∈ localList, d.id = i) ∨ (∃ d ∈ remoteList, d.id = i)) := by
  have hm0 := seed_preserves localList ([] : DocMap)
    (by simp [KeysNodup]) (by intro p hp; cases hp)
  obtain ⟨m', hm'⟩ := mergeRemote_ok remoteList
    (localList.foldl (fun m d => mapSet m d.id d) ([] : DocMap)) hm0.2
  have hpres := mergeRemote_preserves remoteList _ m' hm0.1 hm0.2 hm'
  refine ⟨m'.map Prod.snd, ?_, ?_, ?_⟩
  · simp only [mergeDocuments]
    rw [hm']
    rfl
  · simp only [mergeDocuments]
    have hids : ((m'.map Prod.snd).map Doc.id).Nodup := by
      rw [idKeyed_values_ids m' hpres.2]
      exact hpres.1
    have hseed : (m'.map Prod.snd).foldl (fun m d => mapSet m d.id d) ([] : DocMap)
        = m' := by
      rw [seed_rebuild (m'.map Prod.snd) ([] : DocMap) hids (fun d _ => rfl),
        List.nil_append, idKeyed_values_rebuild m' hpres.2]
    rw [hseed, mergeRemote_idem remoteList _ m' hm0.1 hm0.2 hr hwf hm']
    rfl
  · intro i
    have hout : (∃ d ∈ m'.map Prod.snd, d.id = i) ↔ (mapGet m' i).isSome := by
      rw [isSome_iff_exists_key]
      constructor
      · rintro ⟨d, hd, rfl⟩
        rcases List.mem_map.mp hd with ⟨p, hp, rfl⟩
        exact ⟨p, hp, (hpres.2 p hp).symm⟩
      · rintro ⟨p, hp, hpk⟩
        exact ⟨p.2, List.mem_map_of_mem Prod.snd hp, (hpres.2 p hp).trans hpk⟩
    rw [hout, mergeRemote_isSome remoteList _ m' i hm', seed_isSome localList [] i]
    simp [mapGet, List.mem_map, eq_comm]

/-- Witness for C8 at a concrete overlapping pair: local
`{id:"a", modified:100}` merged with remote `{id:"a", modified:200}` yields
the remote record, and re-merging reproduces it. -/
theorem mergeDocuments_idempotent_witness :
    mergeDocuments [⟨"a", 0, 0, 100, false, []⟩] [⟨"a", 0, 0, 200, false, []⟩]
      = .ok [⟨"a", 0, 0, 200, false, []⟩]
    ∧ mergeDocuments [⟨"a", 0, 0, 200, false, []⟩] [⟨"a", 0, 0, 200, false, []⟩]
      = .ok [⟨"a", 0, 0, 200, false, []⟩] := by
  obtain ⟨out, h1, h2, -⟩ := mergeDocuments_idempotent [⟨"a", 0, 0, 100, false, []⟩]
    [⟨"a", 0, 0, 200, false, []⟩] (by decide) (by decide) (by decide)
  have hcomp : mergeDocuments [⟨"a", 0, 0, 100, false, []⟩] [⟨"a", 0, 0, 200, false, []⟩]
      = .ok [⟨"a", 0, 0, 200, false, []⟩] := rfl
  obtain rfl : out = [⟨"a", 0, 0, 200, false, []⟩] := Except.ok.inj (h1.symm.trans hcomp)
  exact ⟨h1, h2⟩

end Choredomino
